import Mathlib

/-!
Verification development for the ChomikujMp3Downloader repository
(single source file `script.py`).

The Python source is shallowly embedded below:

* `chomikuj_path_to_utf` models the decoding function of the same name
  (PathCodec in the specification): the hex-building scan, Python's
  `bytes.fromhex`, and a strict UTF-8 decoder.
* `matchAudio` / `doTask` model the regular-expression extraction and the
  body of `ChomikujMp3Downloader.do`.
* `workerRun` models the consumer loop `ChomikujMp3Downloader.run`.
* `readBody` models the Content-Length handling of the transfer step.
* `crawlLoop` models the breadth-first walk in `ChomikujDirectory.download`.
* `mainModel` models `main`.

Strings are modelled as `List Char` (Unicode code points, as in Python),
bytes as `Nat` values below 256, and fallible operations return `Option`.
-/

/-- One lowercase hex digit, as produced by Python's `%x` formatting. -/
def hexDigit (d : Nat) : Char :=
  if d < 10 then Char.ofNat (48 + d) else Char.ofNat (87 + d)

/-- Minimal-width lowercase hex digits of `n` (most significant first).
`fuel` bounds the recursion depth; every call site passes fuel that is
ample for the value being formatted (code points are below `2 ^ 24`). -/
def hexDigitsAux (fuel n : Nat) : List Char :=
  match fuel with
  | 0 => []
  | f + 1 =>
    if n < 16 then [hexDigit n]
    else hexDigitsAux f (n / 16) ++ [hexDigit (n % 16)]

/-- Python's `'%02x' % n`: minimal-width lowercase hex of `n`, left-padded
with `'0'` to at least two digits.  For `n < 256` this is exactly two
digits; for larger `n` it is the full hex expansion of `n`. -/
def hexFmt (n : Nat) : List Char :=
  if n < 16 then ['0', hexDigit n] else hexDigitsAux 8 n

/-- ASCII whitespace skipped between byte pairs by `bytes.fromhex`. -/
def isWs (c : Char) : Bool :=
  c == ' ' || c == '\t' || c == '\n' || c == '\x0b' || c == '\x0c' || c == '\r'

/-- Numeric value of one hex digit (`bytes.fromhex` accepts both cases). -/
def hexVal (c : Char) : Option Nat :=
  if '0' ≤ c ∧ c ≤ '9' then some (c.toNat - 48)
  else if 'a' ≤ c ∧ c ≤ 'f' then some (c.toNat - 87)
  else if 'A' ≤ c ∧ c ≤ 'F' then some (c.toNat - 55)
  else none

/-- Python's `bytes.fromhex`: ASCII whitespace may separate byte pairs;
each pair is two adjacent hex digits; anything else raises `ValueError`
(modelled as `none`). -/
def parseHex : List Char → Option (List Nat)
  | [] => some []
  | c :: rest =>
    if isWs c then parseHex rest
    else
      match rest with
      | [] => none
      | c2 :: rest2 =>
        match hexVal c, hexVal c2 with
        | some h, some l => (parseHex rest2).map (fun bs => (16 * h + l) :: bs)
        | _, _ => none

/-- Strict UTF-8 decoding of a byte list, as in Python's
`bytes.decode('utf-8')`: rejects bad lead/continuation bytes, overlong
forms, surrogates and code points above `0x10FFFF`. -/
def utf8Decode : List Nat → Option (List Char)
  | [] => some []
  | b :: rest =>
    if b < 128 then (utf8Decode rest).map (fun cs => Char.ofNat b :: cs)
    else if b < 194 then none
    else if b < 224 then
      match rest with
      | [] => none
      | b2 :: rest2 =>
        if 128 ≤ b2 ∧ b2 < 192 then
          (utf8Decode rest2).map (fun cs => Char.ofNat ((b - 192) * 64 + (b2 - 128)) :: cs)
        else none
    else if b < 240 then
      match rest with
      | b2 :: b3 :: rest3 =>
        if (128 ≤ b2 ∧ b2 < 192) ∧ (128 ≤ b3 ∧ b3 < 192) then
          let cp := (b - 224) * 4096 + (b2 - 128) * 64 + (b3 - 128)
          if 2048 ≤ cp ∧ ¬(55296 ≤ cp ∧ cp ≤ 57343) then
            (utf8Decode rest3).map (fun cs => Char.ofNat cp :: cs)
          else none
        else none
      | _ => none
    else if b < 245 then
      match rest with
      | b2 :: b3 :: b4 :: rest4 =>
        if (128 ≤ b2 ∧ b2 < 192) ∧ (128 ≤ b3 ∧ b3 < 192) ∧ (128 ≤ b4 ∧ b4 < 192) then
          let cp := (b - 240) * 262144 + (b2 - 128) * 4096 + (b3 - 128) * 64 + (b4 - 128)
          if 65536 ≤ cp ∧ cp ≤ 1114111 then
            (utf8Decode rest4).map (fun cs => Char.ofNat cp :: cs)
          else none
        else none
      | _ => none
    else none

/-- The hex-building scan of `chomikuj_path_to_utf` (lines 14-28 of
`script.py`): `'+'`, `':'`, `'?'` emit fixed two-digit codes, `'*'`
copies the next up-to-two characters verbatim and skips them, and any
other character emits `'%02x' % ord(c)`.  A `'*'` near the end copies
whatever remains (Python slicing clips at the end of the string). -/
def hexScan : List Char → List Char
  | [] => []
  | c :: rest =>
    if c = '+' then hexFmt 32 ++ hexScan rest
    else if c = ':' then hexFmt 45 ++ hexScan rest
    else if c = '?' then hexFmt 95 ++ hexScan rest
    else if c = '*' then
      match rest with
      | [] => []
      | [c1] => [c1]
      | c1 :: c2 :: rest2 => c1 :: c2 :: hexScan rest2
    else hexFmt c.toNat ++ hexScan rest

/-- Model of `chomikuj_path_to_utf` (lines 9-29 of `script.py`):
build the hex string, then `bytes.fromhex(out).decode('utf-8')`.
`none` models any exception (`ValueError` from `fromhex` or
`UnicodeDecodeError` from `decode`), the spec's `DecodeError`. -/
def chomikuj_path_to_utf (path : List Char) : Option (List Char) :=
  match parseHex (hexScan path) with
  | none => none
  | some bs => utf8Decode bs

/-- What one character contributes to the hex string when it is scanned
on its own (i.e. not consumed by a preceding `'*'` escape). -/
def litEmit (c : Char) : List Char :=
  if c = '+' then hexFmt 32
  else if c = ':' then hexFmt 45
  else if c = '?' then hexFmt 95
  else hexFmt c.toNat

/-- The byte value a non-escape character stands for: the translations of
`'+'`, `':'`, `'?'`, and `ord c` otherwise. -/
def litByte (c : Char) : Nat :=
  if c = '+' then 32
  else if c = ':' then 45
  else if c = '?' then 95
  else c.toNat

/-- Concatenated hex contributions of a `'*'`-free character list. -/
def litFlat : List Char → List Char
  | [] => []
  | c :: u => litEmit c ++ litFlat u

/-- Greatest `m < n` with `p m = true`, or `none`.  Used to express the
greedy (longest-first) choices the backtracking regex engine makes. -/
def findGreatest (p : Nat → Bool) : Nat → Option Nat
  | 0 => none
  | n + 1 => if p n then some n else findGreatest p n

/-- The sublist of `t` at positions `[a, b)`. -/
def sliceL (t : List Char) (a b : Nat) : List Char :=
  (t.drop a).take (b - a)

/-- The literal tail required by the pattern `\(audio\)$`. -/
def audioMark : List Char := "(audio)".data

/-- Candidate position for the literal `'.'` of the pattern: after the
`','` at `j` with a nonempty id (`j + 2 ≤ k`), leaving a nonempty
extension before the `"(audio)"` tail (`k + 2 ≤ t.length`). -/
def pK (t : List Char) (j k : Nat) : Bool :=
  decide (j + 2 ≤ k) && decide (k + 2 ≤ t.length) && (t[k]? == some '.')

/-- Greedy choice of the `'.'` position (the `id` group is greedy). -/
def findK (t : List Char) (j : Nat) : Option Nat :=
  findGreatest (pK t j) t.length

/-- Candidate position for the literal `','`: after the `'/'` at `i` with
a nonempty name, and with a valid `'.'` position after it. -/
def pJ (t : List Char) (i j : Nat) : Bool :=
  decide (i + 2 ≤ j) && (t[j]? == some ',') && (findK t j).isSome

/-- Greedy choice of the `','` position (the `name` group is greedy). -/
def findJ (t : List Char) (i : Nat) : Option Nat :=
  findGreatest (pJ t i) t.length

/-- Candidate position for the literal `'/'`: a `'/'` with a valid match
of the remaining pattern after it. -/
def pI (t : List Char) (i : Nat) : Bool :=
  (t[i]? == some '/') && (findJ t i).isSome

/-- Greedy choice of the `'/'` position (the leading `.*` is greedy). -/
def findI (t : List Char) : Option Nat :=
  findGreatest (pI t) t.length

/-- Model of `re.match(r"^.*/(?P<name>.+),(?P<id>.+)\.(?P<ext>.+)\(audio\)$", s)`
(line 60 of `script.py`), returning the three named groups.

Notes on fidelity to Python `re` semantics: `$` also matches just before
one trailing newline, so an optional final `'\n'` is stripped first; `.`
matches any character except `'\n'`, and since the literals `'/'`, `','`,
`'.'`, `"(audio)"` are not `'\n'` either, any `'\n'` in the (stripped)
subject falls inside some `.`-group of every candidate split, so the
match fails exactly when a `'\n'` is present; the greedy groups resolve
to the greatest `'/'` position admitting a full match, then the greatest
`','` position, then the greatest `'.'` position. -/
def matchAudio (s : List Char) : Option (List Char × List Char × List Char) :=
  let s1 := if s.getLast? == some '\n' then s.dropLast else s
  if s1.length < 7 then none
  else if s1.drop (s1.length - 7) ≠ audioMark then none
  else
    let t := s1.take (s1.length - 7)
    if '\n' ∈ t then none
    else
      match findI t with
      | none => none
      | some i =>
        match findJ t i with
        | none => none
        | some j =>
          match findK t j with
          | none => none
          | some k =>
            some (sliceL t (i + 1) j, sliceL t (j + 1) k, sliceL t (k + 1) t.length)

/-- The tuple `d = (full_url, local_base, url_base, url_type)` the crawler
puts on the shared queue (line 135 of `script.py`): the spec's
DownloadTask. -/
structure DownloadTask where
  full_url : String
  local_base : String
  url_base : String
  url_type : String
deriving DecidableEq, Repr

/-- The values `ChomikujMp3Downloader.do` computes for a matching task
before performing any I/O: the resolved transfer URL, the local file
name, and the destination directory and file paths. -/
structure Plan where
  download_url : List Char
  fname : List Char
  dst_dir : List Char
  dst_file : List Char
deriving DecidableEq, Repr

/-- Outcome of the pure part of `ChomikujMp3Downloader.do`: fall through
silently (wrong type or no regex match), raise a decode exception
(caught by the worker loop), or produce a download plan. -/
inductive DoResult where
  | skip
  | decodeErr
  | plan (p : Plan)
deriving DecidableEq, Repr

/-- Python's `os.path.join(a, b)` for slash-separated paths: an absolute
`b` replaces `a`; otherwise the parts are joined with `'/'` unless `a`
is empty or already ends in `'/'`. -/
def osJoin (a b : List Char) : List Char :=
  if b.head? = some '/' then b
  else if a = [] then b
  else if a.getLast? = some '/' then a ++ b
  else a ++ '/' :: b

/-- Model of `ChomikujMp3Downloader.do` (lines 54-68 of `script.py`) up to
the point where I/O starts: regex extraction, transfer-URL template
substitution, name decoding, and destination-path computation
(`'/'.join(path.split('/')[:-1])`). -/
def doTask (d : DownloadTask) : DoResult :=
  if d.url_type = "chomikuj_audio" then
    match matchAudio d.full_url.data with
    | none => .skip
    | some (nm, fid, ext) =>
      let download_url :=
        "http://chomikuj.pl/Audio.ashx?id=".data ++ fid ++ "&type=2&tp=mp3".data
      match chomikuj_path_to_utf nm with
      | none => .decodeErr
      | some dn =>
        let fname := dn ++ '.' :: ext
        match chomikuj_path_to_utf (d.full_url.data.drop d.url_base.data.length) with
        | none => .decodeErr
        | some dpath =>
          let path := List.intercalate ['/'] ((dpath.splitOn '/').dropLast)
          let dst_dir := osJoin d.local_base.data path
          let dst_file := osJoin dst_dir fname
          .plan ⟨download_url, fname, dst_dir, dst_file⟩
  else .skip

/-- Model of the consumer loop `ChomikujMp3Downloader.run` (lines 40-52 of
`script.py`).  The worker repeatedly pops from the shared queue; `none`
is the exit sentinel, on which it `break`s immediately; otherwise it
runs `do` inside a `try/except` (any exception is printed and swallowed)
and then calls `task_done()`.  The input list is the sequence of items
this worker pops; the result is the list of processed tasks paired with
the outcome `do` produced for them, together with the number of
`task_done()` calls made. -/
def workerRun (doRes : DownloadTask → Except String Unit) :
    List (Option DownloadTask) → List (DownloadTask × Except String Unit) × Nat
  | [] => ([], 0)
  | none :: _ => ([], 0)
  | some t :: rest =>
    ((t, doRes t) :: (workerRun doRes rest).1, (workerRun doRes rest).2 + 1)

/-- Accounting of `multiprocessing.JoinableQueue`: every `put` increments the unfinished
count, every `task_done` decrements it, and `join()` unblocks exactly
when the acknowledged count has reached the pushed count. -/
def joinUnblocked (pushed acked : Nat) : Bool :=
  acked == pushed

/-- Items the coordinator pushes for a run: the resource tasks plus one
`None` sentinel per worker (lines 136 and 146-147 of `script.py`). -/
def pushedCount (tasks : List DownloadTask) (nWorkers : Nat) : Nat :=
  tasks.length + nWorkers

/-- An HTTP response as the transfer step sees it: the optional numeric
value of the `Content-Length` header, and the available body bytes. -/
structure HttpResponse where
  contentLength : Option Nat
  body : List Nat
deriving DecidableEq, Repr

/-- Model of the transfer read (lines 81-82 of `script.py`):
`file_size = int(response.getheader("Content-Length", 0))` yields the
header value, or `0` when the header is absent, and
`response.read(file_size)` returns at most `file_size` bytes (in
particular `read(0)` returns no bytes at all). -/
def readBody (r : HttpResponse) : List Nat :=
  let file_size := match r.contentLength with
    | some n => n
    | none => 0
  r.body.take file_size

/-- One `folderContent` div of a fetched page, as the HTML-extraction
collaborator reports it: the audio anchors (hrefs already matching
`^.*\(audio\)$`) and the anchors of its `foldersList` sub-divs, in
document order. -/
structure PageDiv where
  audio : List String
  folders : List String
deriving DecidableEq, Repr

/-- A page graph: for each URL the fetched page's `folderContent` divs;
a URL absent from the list models a fetch/parse failure (the
`except` branch at lines 124-126 of `script.py`). -/
abbrev PageGraph := List (String × List PageDiv)

/-- First page bound to `u`, like the fetch at line 122 of `script.py`. -/
def lookupPage (g : PageGraph) (u : String) : Option (List PageDiv) :=
  match g.find? (fun e => e.fst == u) with
  | some e => some e.snd
  | none => none

/-- Crawler state: the frontier `urls_todo`, the `urls_visited` and
`urls_downloaded` lists, and the sequence of tasks put on the shared
queue so far (lines 105-107 of `script.py`). -/
structure CrawlSt where
  todo : List String
  visited : List String
  downloaded : List String
  queue : List DownloadTask
deriving DecidableEq, Repr

/-- The site root prepended to every extracted href (lines 131, 141). -/
def sitePre : String := "http://chomikuj.pl"

/-- One step of the audio-link loop (lines 130-136 of `script.py`):
prepend the site root to the anchor's href; skip if already in
`urls_downloaded`, else record it and put a
`(full_href, local, url, 'chomikuj_audio')` task on the queue. -/
def audStep (local_ root_ : String) (st : CrawlSt) (h : String) : CrawlSt :=
  let full := sitePre ++ h
  if full ∈ st.downloaded then st
  else
    { st with
      downloaded := st.downloaded ++ [full]
      queue := st.queue ++ [⟨full, local_, root_, "chomikuj_audio"⟩] }

/-- The audio-link loop over one div's matching anchors (line 130). -/
def procAudio (local_ root_ : String) (hs : List String) (s : CrawlSt) : CrawlSt :=
  hs.foldl (audStep local_ root_) s

/-- One `folderContent` div (lines 129-142): the audio loop, then the
`foldersList` loop appending prefixed sub-directory URLs to the end of
`urls_todo`. -/
def procDiv (local_ root_ : String) (s : CrawlSt) (dv : PageDiv) : CrawlSt :=
  let s1 := procAudio local_ root_ dv.audio s
  { s1 with todo := s1.todo ++ dv.folders.map (fun h => sitePre ++ h) }

/-- All `folderContent` divs of one fetched page, in document order. -/
def procPage (local_ root_ : String) (divs : List PageDiv) (s : CrawlSt) : CrawlSt :=
  divs.foldl (procDiv local_ root_) s

/-- Model of the crawl loop in `ChomikujDirectory.download` (lines
115-142 of `script.py`), with explicit fuel: pop the first frontier URL,
skip it if already visited, else mark it visited and — when the fetch
succeeds — process the page's divs.  `root_` is `self.url`, `local_` is
`self.local`. -/
def crawlLoop (g : PageGraph) (local_ root_ : String) : Nat → CrawlSt → CrawlSt
  | 0, s => s
  | fuel + 1, s =>
    match s.todo with
    | [] => s
    | current :: rest =>
      if current ∈ s.visited then crawlLoop g local_ root_ fuel { s with todo := rest }
      else
        let s1 := { s with todo := rest, visited := s.visited ++ [current] }
        match lookupPage g current with
        | none => crawlLoop g local_ root_ fuel s1
        | some divs => crawlLoop g local_ root_ fuel (procPage local_ root_ divs s1)

/-- Initial crawler state: the frontier holds only the starting URL. -/
def crawlInit (start : String) : CrawlSt :=
  ⟨[start], [], [], []⟩

/-- Model of `main` (lines 151-161 of `script.py`): with fewer than two
entries in `sys.argv` print the usage line and exit with status 1;
otherwise the starting URL is `sys.argv[-1]`. -/
def mainModel (argv : List String) : Except Nat String :=
  if argv.length < 2 then .error 1 else .ok (argv.getLastD "")

/-- Number of frontier entries one visited page contributes: the total
count of `foldersList` anchors over its `folderContent` divs. -/
def pageW (divs : List PageDiv) : Nat :=
  (divs.map (fun dv => dv.folders.length)).sum

/-- Frontier entries contributed by visiting `u`: none when the fetch
fails, else the page's folder-anchor count. -/
def dlW (g : PageGraph) (u : String) : Nat :=
  match lookupPage g u with
  | none => 0
  | some divs => pageW divs

/-- The distinct URLs the page graph can answer for. -/
def gKeys (g : PageGraph) : List String :=
  (g.map Prod.fst).dedup

/-- Total remaining work charged to not-yet-visited graph URLs. -/
def unvisitedW (g : PageGraph) (visited : List String) : Nat :=
  (((gKeys g).filter (fun u => decide (u ∉ visited))).map (fun u => 1 + dlW g u)).sum

/-- Termination measure for the crawl loop: frontier length plus the
work still chargeable to unvisited graph URLs. -/
def crawlMeasure (g : PageGraph) (s : CrawlSt) : Nat :=
  s.todo.length + unvisitedW g s.visited

/-- Two directory pages that both link the same audio resource: page `A`
lists resource `r1` and sub-directory `B`; page `B` lists `r1` again. -/
def gShared : PageGraph :=
  [("http://chomikuj.pl/A", [⟨["/r1(audio)"], ["/B"]⟩]),
   ("http://chomikuj.pl/B", [⟨["/r1(audio)"], []⟩])]

/-! ## Lemmas about the path codec -/

theorem hexVal_hexDigit {d : Nat} (h : d < 16) : hexVal (hexDigit d) = some d := by
  interval_cases d <;> decide

theorem hexVal_of_ws {c : Char} (h : isWs c = true) : hexVal c = none := by
  simp only [isWs, Bool.or_eq_true, beq_iff_eq] at h
  rcases h with ((((h | h) | h) | h) | h) | h <;> subst h <;> decide

theorem not_ws_of_hexVal {c : Char} {v : Nat} (h : hexVal c = some v) : isWs c = false := by
  cases hw : isWs c with
  | false => rfl
  | true => rw [hexVal_of_ws hw] at h; cases h

theorem parseHex_pair {a b : Char} {ha hb : Nat}
    (h1 : hexVal a = some ha) (h2 : hexVal b = some hb) (r : List Char) :
    parseHex (a :: b :: r) = (parseHex r).map (fun bs => (16 * ha + hb) :: bs) := by
  simp [parseHex, not_ws_of_hexVal h1, h1, h2]

theorem parseHex_single {c : Char} (h : isWs c = false) : parseHex [c] = none := by
  simp [parseHex, h]

theorem hexFmt_two {n : Nat} (h : n < 256) :
    hexFmt n = [hexDigit (n / 16), hexDigit (n % 16)] := by
  by_cases h16 : n < 16
  · simp [hexFmt, h16, Nat.div_eq_of_lt h16, Nat.mod_eq_of_lt h16]
    decide
  · have hd : n / 16 < 16 := Nat.div_lt_of_lt_mul (by omega)
    simp [hexFmt, hexDigitsAux, h16, hd]

theorem parseHex_hexFmt_cons {n : Nat} (h : n < 256) (r : List Char) :
    parseHex (hexFmt n ++ r) = (parseHex r).map (fun bs => n :: bs) := by
  have hdiv : n / 16 < 16 := Nat.div_lt_of_lt_mul (by omega)
  have hmod : n % 16 < 16 := Nat.mod_lt _ (by omega)
  rw [hexFmt_two h]
  rw [show ([hexDigit (n / 16), hexDigit (n % 16)] ++ r) =
        hexDigit (n / 16) :: hexDigit (n % 16) :: r from rfl]
  rw [parseHex_pair (hexVal_hexDigit hdiv) (hexVal_hexDigit hmod) r]
  rw [Nat.div_add_mod n 16]

theorem litByte_lt {c : Char} (h : c.toNat < 256) : litByte c < 256 := by
  unfold litByte
  by_cases h1 : c = '+' <;> by_cases h2 : c = ':' <;> by_cases h3 : c = '?' <;>
    simp [h1, h2, h3, h]

theorem litEmit_eq {c : Char} : litEmit c = hexFmt (litByte c) := by
  unfold litEmit litByte
  by_cases h1 : c = '+' <;> by_cases h2 : c = ':' <;> by_cases h3 : c = '?' <;>
    simp [h1, h2, h3]

theorem hexScan_cons_not_star {c : Char} (hc : c ≠ '*') (rest : List Char) :
    hexScan (c :: rest) = litEmit c ++ hexScan rest := by
  by_cases h1 : c = '+'
  · subst h1; rw [hexScan.eq_def]; simp [litEmit]
  · by_cases h2 : c = ':'
    · subst h2; rw [hexScan.eq_def]; simp [litEmit]
    · by_cases h3 : c = '?'
      · subst h3; rw [hexScan.eq_def]; simp [litEmit]
      · rw [hexScan.eq_def]; simp [h1, h2, h3, hc, litEmit]

theorem hexScan_append_no_star :
    ∀ (u r : List Char), '*' ∉ u → hexScan (u ++ r) = litFlat u ++ hexScan r := by
  intro u
  induction u with
  | nil => intro r _; simp [litFlat]
  | cons c u ih =>
    intro r hs
    have hc : c ≠ '*' := fun h => hs (h ▸ List.mem_cons_self c u)
    have hu : '*' ∉ u := fun h => hs (List.mem_cons_of_mem c h)
    rw [List.cons_append, hexScan_cons_not_star hc, litFlat, ih r hu, List.append_assoc]

theorem parseHex_litFlat :
    ∀ (u : List Char), (∀ c ∈ u, c.toNat < 256) →
      ∀ (r : List Char),
        parseHex (litFlat u ++ r) = (parseHex r).map (fun bs => u.map litByte ++ bs) := by
  intro u
  induction u with
  | nil =>
    intro _ r
    simp only [litFlat, List.nil_append, List.map_nil]
    cases parseHex r <;> simp
  | cons c u ih =>
    intro hlt r
    have hc : c.toNat < 256 := hlt c (List.mem_cons_self c u)
    have hu : ∀ x ∈ u, x.toNat < 256 := fun x hx => hlt x (List.mem_cons_of_mem c hx)
    have : litFlat (c :: u) ++ r = hexFmt (litByte c) ++ (litFlat u ++ r) := by
      simp [litFlat, litEmit_eq]
    rw [this, parseHex_hexFmt_cons (litByte_lt hc), ih hu r]
    cases parseHex r <;> simp

theorem hexFmt_three {n : Nat} (h1 : 256 ≤ n) (h2 : n < 4096) :
    hexFmt n = [hexDigit (n / 256), hexDigit (n / 16 % 16), hexDigit (n % 16)] := by
  have ha : ¬n < 16 := by omega
  have hb : ¬n / 16 < 16 := by
    have : 16 ≤ n / 16 := (Nat.le_div_iff_mul_le (by omega)).mpr (by omega)
    omega
  have hc : n / 256 < 16 := Nat.div_lt_of_lt_mul (by omega)
  simp [hexFmt, hexDigitsAux, ha, hb, hc, Nat.div_div_eq_div_mul]

/-- C5: the codec maps `'+'` to a space, `':'` to `'-'`, `'?'` to `'_'`,
and on inputs made only of literal characters outside the special
alphabet with code points at most 255 it agrees with decoding those code
points as raw UTF-8 bytes. -/
theorem c5_codec_mappings_and_passthrough :
    chomikuj_path_to_utf "a+b".data = some "a b".data ∧
    chomikuj_path_to_utf "a:b".data = some "a-b".data ∧
    chomikuj_path_to_utf "a?b".data = some "a_b".data ∧
    ∀ s : List Char,
      (∀ c ∈ s, c ∉ ['+', ':', '?', '*'] ∧ c.toNat ≤ 255) →
      chomikuj_path_to_utf s = utf8Decode (s.map Char.toNat) := by
  refine ⟨by decide, by decide, by decide, ?_⟩
  intro s h
  have hstar : '*' ∉ s := fun hm => (h _ hm).1 (by simp)
  have h256 : ∀ c ∈ s, c.toNat < 256 := fun c hc => by have := (h c hc).2; omega
  have hscan : hexScan s = litFlat s := by
    have := hexScan_append_no_star s [] hstar
    simpa [show hexScan [] = [] from rfl] using this
  have hparse : parseHex (litFlat s) = some (s.map litByte) := by
    have := parseHex_litFlat s h256 []
    simpa [show parseHex [] = some ([] : List Nat) from rfl] using this
  have hlit : s.map litByte = s.map Char.toNat := by
    apply List.map_congr_left
    intro c hc
    have h1 : c ≠ '+' := fun e => (h c hc).1 (by simp [e])
    have h2 : c ≠ ':' := fun e => (h c hc).1 (by simp [e])
    have h3 : c ≠ '?' := fun e => (h c hc).1 (by simp [e])
    simp [litByte, h1, h2, h3]
  simp [chomikuj_path_to_utf, hscan, hparse, hlit]

/-- C5 witness: the literal-passthrough clause applied at `"Hi"`. -/
theorem c5_witness :
    chomikuj_path_to_utf "Hi".data = utf8Decode ("Hi".data.map Char.toNat) :=
  c5_codec_mappings_and_passthrough.2.2.2 "Hi".data (by decide)

/-- C2 counterexample: `"a*"` and `"*"` both end in a `'*'` with fewer
than two characters remaining, yet decoding succeeds (the clipped slice
contributes nothing) instead of failing with `DecodeError`. -/
theorem c2_trailing_star_counterexample :
    chomikuj_path_to_utf "a*".data = some "a".data ∧
    chomikuj_path_to_utf "*".data = some "".data := by
  constructor <;> decide

/-- C2 (amended): a `'*'` in the second-to-last position — one character
remaining after it — makes the copied slice a single character, so the
hex string has odd non-whitespace length and decoding fails, provided
the final character is not `fromhex` whitespace and the preceding
characters are escape-free with code points at most 255.  A `'*'` as the
very last character copies an empty slice and decoding can succeed. -/
theorem c2_star_second_to_last_fails (s : List Char) (c : Char)
    (hstar : '*' ∉ s) (h255 : ∀ x ∈ s, x.toNat ≤ 255) (hws : isWs c = false) :
    chomikuj_path_to_utf (s ++ ['*', c]) = none := by
  have h256 : ∀ x ∈ s, x.toNat < 256 := fun x hx => by have := h255 x hx; omega
  have hscan : hexScan (s ++ ['*', c]) = litFlat s ++ [c] := by
    rw [hexScan_append_no_star s ['*', c] hstar]
    congr 1
  have hparse : parseHex (litFlat s ++ [c]) = none := by
    rw [parseHex_litFlat s h256 [c], parseHex_single hws]
    rfl
  simp [chomikuj_path_to_utf, hscan, hparse]

/-- C2 witness: the amended statement applied at `"a*b"`. -/
theorem c2_witness : chomikuj_path_to_utf "a*b".data = none :=
  c2_star_second_to_last_fails "a".data 'b' (by decide) (by decide) (by decide)

/-- C4 counterexample: the input consisting of the single literal
character U+2020 (code point 8224, above 255) decodes successfully to
two spaces — `'%02x' % 8224` is the four-digit string `"2020"` — instead
of failing with `DecodeError`. -/
theorem c4_large_codepoint_counterexample :
    chomikuj_path_to_utf [Char.ofNat 8224] = some "  ".data := by decide

/-- C4 (amended): a literal character with code point above 255 emits the
full minimal-width hex of its code point rather than failing outright;
decoding fails only when the resulting hex string is malformed.  In
particular a single literal character with a three-hex-digit code point
(256 to 4095) yields an odd-length hex string and fails. -/
theorem c4_three_digit_codepoint_fails (c : Char)
    (h1 : 256 ≤ c.toNat) (h2 : c.toNat < 4096) :
    chomikuj_path_to_utf [c] = none := by
  have hplus : c ≠ '+' := by intro h; subst h; exact absurd h1 (by decide)
  have hcol : c ≠ ':' := by intro h; subst h; exact absurd h1 (by decide)
  have hqm : c ≠ '?' := by intro h; subst h; exact absurd h1 (by decide)
  have hst : c ≠ '*' := by intro h; subst h; exact absurd h1 (by decide)
  have hscan : hexScan [c] = hexFmt c.toNat := by
    rw [show ([c] : List Char) = c :: [] from rfl, hexScan_cons_not_star hst]
    simp [litEmit, hplus, hcol, hqm, show hexScan [] = [] from rfl]
  have hd1 : c.toNat / 256 < 16 := Nat.div_lt_of_lt_mul (by omega)
  have hd2 : c.toNat / 16 % 16 < 16 := Nat.mod_lt _ (by omega)
  have hd3 : c.toNat % 16 < 16 := Nat.mod_lt _ (by omega)
  have hparse : parseHex (hexFmt c.toNat) = none := by
    rw [hexFmt_three h1 h2]
    rw [show [hexDigit (c.toNat / 256), hexDigit (c.toNat / 16 % 16), hexDigit (c.toNat % 16)] =
          hexDigit (c.toNat / 256) :: hexDigit (c.toNat / 16 % 16) :: [hexDigit (c.toNat % 16)]
        from rfl]
    rw [parseHex_pair (hexVal_hexDigit hd1) (hexVal_hexDigit hd2)]
    rw [parseHex_single (not_ws_of_hexVal (hexVal_hexDigit hd3))]
    rfl
  simp [chomikuj_path_to_utf, hscan, hparse]

/-- C4 witness: the amended statement applied at U+0100 (code point 256). -/
theorem c4_witness : chomikuj_path_to_utf [Char.ofNat 256] = none :=
  c4_three_digit_codepoint_fails (Char.ofNat 256) (by decide) (by decide)

/-! ## Worker loop, transfer read, and entry point -/

/-- C9: for every non-sentinel task, whatever outcome `do` produces —
including any exception — the worker records the task as processed and
calls `task_done` exactly once per processed task, and it keeps
processing the remaining tasks up to the sentinel: the processed tasks
and the acknowledgement count do not depend on the failure behaviour. -/
theorem c9_worker_failure_isolation
    (doRes : DownloadTask → Except String Unit) (stream : List (Option DownloadTask)) :
    (workerRun doRes stream).1.map Prod.fst = (stream.takeWhile Option.isSome).filterMap id ∧
    (workerRun doRes stream).2 = (workerRun doRes stream).1.length := by
  induction stream with
  | nil => simp [workerRun]
  | cons o rest ih =>
    cases o with
    | none => simp [workerRun, List.takeWhile]
    | some t =>
      refine ⟨?_, ?_⟩
      · simp [workerRun, List.takeWhile, ih.1]
      · simp [workerRun, ih.2]

/-- C1 is refuted: a worker that pops the shutdown sentinel `break`s
before calling `task_done`, so after any sequence of tasks followed by
the sentinel the acknowledgement count equals only the number of
resource tasks, one short of the pushed count, and the join barrier
never unblocks. -/
theorem c1_sentinel_never_acknowledged
    (doRes : DownloadTask → Except String Unit) (ts : List DownloadTask) :
    (workerRun doRes (ts.map some ++ [none])).2 = ts.length ∧
    joinUnblocked (pushedCount ts 1) (workerRun doRes (ts.map some ++ [none])).2 = false := by
  have hacks : (workerRun doRes (ts.map some ++ [none])).2 = ts.length := by
    induction ts with
    | nil => simp [workerRun]
    | cons t ts ih => simp [workerRun, ih]
  refine ⟨hacks, ?_⟩
  rw [hacks]
  simp [joinUnblocked, pushedCount]

/-- C3: the number of body bytes read is bounded by an advertised
`Content-Length`, but a missing or zero `Content-Length` makes the code
call `response.read(0)`, which reads zero bytes — not "everything
available". -/
theorem c3_transfer_read :
    (∀ (r : HttpResponse) (n : Nat), r.contentLength = some n → (readBody r).length ≤ n) ∧
    readBody ⟨none, [104, 105]⟩ = [] ∧
    readBody ⟨some 0, [104, 105]⟩ = [] := by
  refine ⟨?_, rfl, rfl⟩
  intro r n h
  simp [readBody, h, List.length_take]

/-- C3 witness: the bound applied at a response advertising two bytes. -/
theorem c3_witness : (readBody ⟨some 2, [1, 2, 3]⟩).length ≤ 2 :=
  c3_transfer_read.1 ⟨some 2, [1, 2, 3]⟩ 2 rfl

/-- C10: with two or more arguments after the script name the starting
URL is the last argument (`sys.argv[-1]`); with no arguments the program
exits with status 1 after the usage message. -/
theorem c10_main_uses_last_argument :
    (∀ (script : String) (args : List String), 2 ≤ args.length →
       mainModel (script :: args) = .ok (args.getLastD "")) ∧
    (∀ argv : List String, argv.length < 2 → mainModel argv = .error 1) := by
  constructor
  · intro script args h2
    rcases args with _ | ⟨a, rest⟩
    · simp at h2
    · have hlen : ¬(script :: a :: rest).length < 2 := by
        simp [List.length_cons]
      simp [mainModel, hlen, List.getLastD_cons]
  · intro argv h
    simp [mainModel, h]

/-- C10 witness: both clauses at concrete argument vectors. -/
theorem c10_witness :
    mainModel ["script.py", "http://a", "http://b"] = .ok "http://b" ∧
    mainModel ["script.py"] = .error 1 := by
  constructor
  · have := c10_main_uses_last_argument.1 "script.py" ["http://a", "http://b"] (by decide)
    simpa using this
  · exact c10_main_uses_last_argument.2 ["script.py"] (by decide)

/-! ## Lemmas about the crawl loop -/

theorem audStep_visited (l r : String) (st : CrawlSt) (h : String) :
    (audStep l r st h).visited = st.visited := by
  unfold audStep
  by_cases hm : (sitePre ++ h) ∈ st.downloaded <;> simp [hm]

theorem audStep_todo (l r : String) (st : CrawlSt) (h : String) :
    (audStep l r st h).todo = st.todo := by
  unfold audStep
  by_cases hm : (sitePre ++ h) ∈ st.downloaded <;> simp [hm]

theorem audStep_qinv (l r : String) (st : CrawlSt) (h : String)
    (hq : st.queue.map DownloadTask.full_url = st.downloaded ∧ st.downloaded.Nodup) :
    (audStep l r st h).queue.map DownloadTask.full_url = (audStep l r st h).downloaded ∧
      (audStep l r st h).downloaded.Nodup := by
  unfold audStep
  by_cases hm : (sitePre ++ h) ∈ st.downloaded
  · simpa [hm] using hq
  · refine ⟨?_, ?_⟩
    · simp [hm, hq.1]
    · simp only [hm, if_false]
      rw [List.nodup_append_comm]
      exact List.nodup_cons.mpr ⟨hm, hq.2⟩

theorem procAudio_visited (l r : String) :
    ∀ (hs : List String) (s : CrawlSt), (procAudio l r hs s).visited = s.visited := by
  intro hs
  induction hs with
  | nil => intro s; rfl
  | cons a hs ih =>
    intro s
    exact (ih (audStep l r s a)).trans (audStep_visited l r s a)

theorem procAudio_todo (l r : String) :
    ∀ (hs : List String) (s : CrawlSt), (procAudio l r hs s).todo = s.todo := by
  intro hs
  induction hs with
  | nil => intro s; rfl
  | cons a hs ih =>
    intro s
    exact (ih (audStep l r s a)).trans (audStep_todo l r s a)

theorem procAudio_qinv (l r : String) :
    ∀ (hs : List String) (s : CrawlSt),
      (s.queue.map DownloadTask.full_url = s.downloaded ∧ s.downloaded.Nodup) →
      (procAudio l r hs s).queue.map DownloadTask.full_url = (procAudio l r hs s).downloaded ∧
        (procAudio l r hs s).downloaded.Nodup := by
  intro hs
  induction hs with
  | nil => intro s hq; exact hq
  | cons a hs ih =>
    intro s hq
    exact ih (audStep l r s a) (audStep_qinv l r s a hq)

theorem procDiv_visited (l r : String) (s : CrawlSt) (dv : PageDiv) :
    (procDiv l r s dv).visited = s.visited := by
  unfold procDiv
  simp [procAudio_visited]

theorem procDiv_todo_len (l r : String) (s : CrawlSt) (dv : PageDiv) :
    (procDiv l r s dv).todo.length = s.todo.length + dv.folders.length := by
  unfold procDiv
  simp [procAudio_todo]

theorem procDiv_qinv (l r : String) (s : CrawlSt) (dv : PageDiv)
    (hq : s.queue.map DownloadTask.full_url = s.downloaded ∧ s.downloaded.Nodup) :
    (procDiv l r s dv).queue.map DownloadTask.full_url = (procDiv l r s dv).downloaded ∧
      (procDiv l r s dv).downloaded.Nodup := by
  unfold procDiv
  exact procAudio_qinv l r dv.audio s hq

theorem procPage_visited (l r : String) :
    ∀ (divs : List PageDiv) (s : CrawlSt), (procPage l r divs s).visited = s.visited := by
  intro divs
  induction divs with
  | nil => intro s; rfl
  | cons dv divs ih =>
    intro s
    exact (ih (procDiv l r s dv)).trans (procDiv_visited l r s dv)

theorem procPage_todo_len (l r : String) :
    ∀ (divs : List PageDiv) (s : CrawlSt),
      (procPage l r divs s).todo.length = s.todo.length + pageW divs := by
  intro divs
  induction divs with
  | nil => intro s; simp [pageW, procPage]
  | cons dv divs ih =>
    intro s
    have h1 : (procPage l r (dv :: divs) s).todo.length
        = (procDiv l r s dv).todo.length + pageW divs := ih (procDiv l r s dv)
    rw [h1, procDiv_todo_len]
    simp [pageW]
    omega

theorem procPage_qinv (l r : String) :
    ∀ (divs : List PageDiv) (s : CrawlSt),
      (s.queue.map DownloadTask.full_url = s.downloaded ∧ s.downloaded.Nodup) →
      (procPage l r divs s).queue.map DownloadTask.full_url = (procPage l r divs s).downloaded ∧
        (procPage l r divs s).downloaded.Nodup := by
  intro divs
  induction divs with
  | nil => intro s hq; exact hq
  | cons dv divs ih =>
    intro s hq
    exact ih (procDiv l r s dv) (procDiv_qinv l r s dv hq)

theorem crawlLoop_zero (g : PageGraph) (l r : String) (s : CrawlSt) :
    crawlLoop g l r 0 s = s := rfl

theorem crawlLoop_succ_nil (g : PageGraph) (l r : String) (n : Nat)
    (vs dl : List String) (q : List DownloadTask) :
    crawlLoop g l r (n + 1) ⟨[], vs, dl, q⟩ = ⟨[], vs, dl, q⟩ := by
  rw [crawlLoop.eq_def]

theorem crawlLoop_succ_skip (g : PageGraph) (l r : String) (n : Nat)
    (cur : String) (rest : List String) (vs dl : List String) (q : List DownloadTask)
    (hv : cur ∈ vs) :
    crawlLoop g l r (n + 1) ⟨cur :: rest, vs, dl, q⟩ = crawlLoop g l r n ⟨rest, vs, dl, q⟩ := by
  rw [crawlLoop.eq_def]
  simp [hv]

theorem crawlLoop_succ_miss (g : PageGraph) (l r : String) (n : Nat)
    (cur : String) (rest : List String) (vs dl : List String) (q : List DownloadTask)
    (hv : cur ∉ vs) (hl : lookupPage g cur = none) :
    crawlLoop g l r (n + 1) ⟨cur :: rest, vs, dl, q⟩
      = crawlLoop g l r n ⟨rest, vs ++ [cur], dl, q⟩ := by
  rw [crawlLoop.eq_def]
  simp [hv, hl]

theorem crawlLoop_succ_page (g : PageGraph) (l r : String) (n : Nat)
    (cur : String) (rest : List String) (vs dl : List String) (q : List DownloadTask)
    (divs : List PageDiv)
    (hv : cur ∉ vs) (hl : lookupPage g cur = some divs) :
    crawlLoop g l r (n + 1) ⟨cur :: rest, vs, dl, q⟩
      = crawlLoop g l r n (procPage l r divs ⟨rest, vs ++ [cur], dl, q⟩) := by
  rw [crawlLoop.eq_def]
  simp [hv, hl]

theorem sum_filter_erase (w : String → Nat) :
    ∀ (l v : List String) (c : String), l.Nodup → c ∈ l → c ∉ v →
      ((l.filter (fun u => decide (u ∉ v ++ [c]))).map w).sum + w c
        = ((l.filter (fun u => decide (u ∉ v))).map w).sum := by
  intro l
  induction l with
  | nil => intro v c _ hc; exact absurd hc (List.not_mem_nil c)
  | cons a l ih =>
    intro v c hnd hc hcv
    have hal : a ∉ l := (List.nodup_cons.mp hnd).1
    have hnd' : l.Nodup := (List.nodup_cons.mp hnd).2
    rcases List.mem_cons.mp hc with hca | hcl
    · subst hca
      have hfeq : l.filter (fun u => decide (u ∉ v ++ [c])) =
          l.filter (fun u => decide (u ∉ v)) := by
        apply List.filter_congr
        intro u hu
        have hua : u ≠ c := fun e => hal (e ▸ hu)
        simp [List.mem_append, hua]
      rw [List.filter_cons, List.filter_cons, hfeq]
      rw [if_neg (by simp), if_pos (decide_eq_true hcv)]
      simp [Nat.add_comm]
    · have hac : a ≠ c := fun e => hal (e ▸ hcl)
      have hhead : (decide (a ∉ v ++ [c]) : Bool) = decide (a ∉ v) := by
        by_cases hav : a ∈ v <;> simp [List.mem_append, hac, hav]
      rw [List.filter_cons, List.filter_cons, hhead]
      by_cases hav : a ∉ v
      · rw [if_pos (decide_eq_true hav), if_pos (decide_eq_true hav)]
        have := ih v c hnd' hcl hcv
        simp only [List.map_cons, List.sum_cons]
        omega
      · rw [if_neg (by simpa using hav), if_neg (by simpa using hav)]
        exact ih v c hnd' hcl hcv

theorem sum_filter_mono (w : String → Nat) :
    ∀ (l v : List String) (c : String),
      ((l.filter (fun u => decide (u ∉ v ++ [c]))).map w).sum
        ≤ ((l.filter (fun u => decide (u ∉ v))).map w).sum := by
  intro l
  induction l with
  | nil => intro v c; simp
  | cons a l ih =>
    intro v c
    rw [List.filter_cons, List.filter_cons]
    by_cases h1 : a ∉ v ++ [c]
    · have h2 : a ∉ v := fun hv => h1 (List.mem_append.mpr (Or.inl hv))
      rw [if_pos (decide_eq_true h1), if_pos (decide_eq_true h2)]
      have := ih v c
      simp only [List.map_cons, List.sum_cons]
      omega
    · rw [if_neg (by simpa using h1)]
      by_cases h2 : a ∉ v
      · rw [if_pos (decide_eq_true h2)]
        have := ih v c
        simp only [List.map_cons, List.sum_cons]
        omega
      · rw [if_neg (by simpa using h2)]
        exact ih v c

theorem mem_gKeys_of_lookup {g : PageGraph} {u : String} {divs : List PageDiv}
    (h : lookupPage g u = some divs) : u ∈ gKeys g := by
  unfold lookupPage at h
  cases hf : List.find? (fun e => e.fst == u) g with
  | none => rw [hf] at h; cases h
  | some e =>
    have he : e ∈ g := List.mem_of_find?_eq_some hf
    have hp := List.find?_some hf
    have heq : e.fst = u := by simpa using hp
    unfold gKeys
    rw [List.mem_dedup]
    exact heq ▸ List.mem_map_of_mem Prod.fst he

theorem dlW_of_lookup {g : PageGraph} {u : String} {divs : List PageDiv}
    (h : lookupPage g u = some divs) : dlW g u = pageW divs := by
  unfold dlW
  rw [h]

theorem unvisitedW_visit (g : PageGraph) (v : List String) (c : String)
    (hc : c ∈ gKeys g) (hcv : c ∉ v) :
    unvisitedW g (v ++ [c]) + (1 + dlW g c) = unvisitedW g v :=
  sum_filter_erase (fun u => 1 + dlW g u) (gKeys g) v c (List.nodup_dedup _) hc hcv

theorem unvisitedW_mono (g : PageGraph) (v : List String) (c : String) :
    unvisitedW g (v ++ [c]) ≤ unvisitedW g v :=
  sum_filter_mono (fun u => 1 + dlW g u) (gKeys g) v c

theorem crawl_todo_empty (g : PageGraph) (l r : String) :
    ∀ (n : Nat) (s : CrawlSt), crawlMeasure g s ≤ n → (crawlLoop g l r n s).todo = [] := by
  intro n
  induction n with
  | zero =>
    intro s hm
    obtain ⟨td, vs, dl, q⟩ := s
    have h0 : td = [] := by
      have h1 : td.length = 0 := by
        have hm' : td.length + unvisitedW g vs ≤ 0 := hm
        omega
      exact List.length_eq_zero.mp h1
    subst h0
    rfl
  | succ n ih =>
    intro s hm
    obtain ⟨td, vs, dl, q⟩ := s
    cases td with
    | nil => rw [crawlLoop_succ_nil]
    | cons cur rest =>
      by_cases hv : cur ∈ vs
      · rw [crawlLoop_succ_skip g l r n cur rest vs dl q hv]
        apply ih
        simp [crawlMeasure] at hm ⊢
        omega
      · cases hl : lookupPage g cur with
        | none =>
          rw [crawlLoop_succ_miss g l r n cur rest vs dl q hv hl]
          apply ih
          have hmono := unvisitedW_mono g vs cur
          simp [crawlMeasure] at hm ⊢
          omega
        | some divs =>
          rw [crawlLoop_succ_page g l r n cur rest vs dl q divs hv hl]
          apply ih
          have hvisit := unvisitedW_visit g vs cur (mem_gKeys_of_lookup hl) hv
          rw [dlW_of_lookup hl] at hvisit
          have hlen : (procPage l r divs ⟨rest, vs ++ [cur], dl, q⟩).todo.length
              = rest.length + pageW divs := by
            rw [procPage_todo_len]
          have hvis : (procPage l r divs ⟨rest, vs ++ [cur], dl, q⟩).visited
              = vs ++ [cur] := by
            rw [procPage_visited]
          simp [crawlMeasure, hlen, hvis] at hm ⊢
          omega

theorem crawl_visited_nodup (g : PageGraph) (l r : String) :
    ∀ (n : Nat) (s : CrawlSt), s.visited.Nodup → (crawlLoop g l r n s).visited.Nodup := by
  intro n
  induction n with
  | zero => intro s h; exact h
  | succ n ih =>
    intro s h
    obtain ⟨td, vs, dl, q⟩ := s
    cases td with
    | nil => rw [crawlLoop_succ_nil]; exact h
    | cons cur rest =>
      by_cases hv : cur ∈ vs
      · rw [crawlLoop_succ_skip g l r n cur rest vs dl q hv]
        exact ih _ h
      · have hnd : (vs ++ [cur]).Nodup := by
          rw [List.nodup_append_comm]
          exact List.nodup_cons.mpr ⟨hv, h⟩
        cases hl : lookupPage g cur with
        | none =>
          rw [crawlLoop_succ_miss g l r n cur rest vs dl q hv hl]
          exact ih _ hnd
        | some divs =>
          rw [crawlLoop_succ_page g l r n cur rest vs dl q divs hv hl]
          apply ih
          rw [procPage_visited]
          exact hnd

theorem crawl_queue_inv (g : PageGraph) (l r : String) :
    ∀ (n : Nat) (s : CrawlSt),
      (s.queue.map DownloadTask.full_url = s.downloaded ∧ s.downloaded.Nodup) →
      (crawlLoop g l r n s).queue.map DownloadTask.full_url
          = (crawlLoop g l r n s).downloaded ∧
        (crawlLoop g l r n s).downloaded.Nodup := by
  intro n
  induction n with
  | zero => intro s h; exact h
  | succ n ih =>
    intro s h
    obtain ⟨td, vs, dl, q⟩ := s
    cases td with
    | nil => rw [crawlLoop_succ_nil]; exact h
    | cons cur rest =>
      by_cases hv : cur ∈ vs
      · rw [crawlLoop_succ_skip g l r n cur rest vs dl q hv]
        exact ih _ h
      · cases hl : lookupPage g cur with
        | none =>
          rw [crawlLoop_succ_miss g l r n cur rest vs dl q hv hl]
          exact ih _ h
        | some divs =>
          rw [crawlLoop_succ_page g l r n cur rest vs dl q divs hv hl]
          exact ih _ (procPage_qinv l r divs ⟨rest, vs ++ [cur], dl, q⟩ h)

/-- C8: for every finite page graph — cycles included — the crawl loop
reaches an empty frontier within finite fuel, and the visited list never
acquires a duplicate, i.e. every URL is marked visited (and hence
fetched) at most once. -/
theorem c8_crawl_terminates_visits_once (g : PageGraph) (l r start : String) :
    ∃ n, (crawlLoop g l r n (crawlInit start)).todo = [] ∧
         (crawlLoop g l r n (crawlInit start)).visited.Nodup := by
  refine ⟨crawlMeasure g (crawlInit start), ?_, ?_⟩
  · exact crawl_todo_empty g l r _ _ (le_refl _)
  · exact crawl_visited_nodup g l r _ _ (by simp [crawlInit])

/-- C7: the resource URLs of the tasks ever pushed are exactly the
`urls_downloaded` entries — with no duplicates, so each resource URL
yields at most one task — and in the concrete two-page graph `gShared`
where both pages link the same resource, exactly one task is pushed. -/
theorem c7_at_most_one_task_per_resource :
    (∀ (g : PageGraph) (l r start : String) (n : Nat),
       ((crawlLoop g l r n (crawlInit start)).queue.map DownloadTask.full_url).Nodup) ∧
    (crawlLoop gShared "." "http://chomikuj.pl/A" 3
        (crawlInit "http://chomikuj.pl/A")).queue.map DownloadTask.full_url
      = ["http://chomikuj.pl/r1(audio)"] := by
  constructor
  · intro g l r start n
    have h := crawl_queue_inv g l r n (crawlInit start) (by simp [crawlInit])
    rw [h.1]
    exact h.2
  · rfl

/-! ## Lemmas about the regex extraction -/

theorem findGreatest_eq_some {p : Nat → Bool} :
    ∀ {n m : Nat}, m < n → p m = true → (∀ j, m < j → j < n → p j = false) →
      findGreatest p n = some m := by
  intro n
  induction n with
  | zero => intro m hm _ _; exact absurd hm (Nat.not_lt_zero m)
  | succ n ih =>
    intro m hm hp hmax
    by_cases hmn : m = n
    · subst hmn
      simp [findGreatest, hp]
    · have hlt : m < n := by omega
      have hpn : p n = false := hmax n hlt (Nat.lt_succ_self n)
      simp [findGreatest, hpn]
      exact ih hlt hp (fun j h1 h2 => hmax j h1 (by omega))

theorem matchAudio_structural
    (pre nm fid ext : List Char)
    (hnm : nm ≠ []) (hfid : fid ≠ []) (hext : ext ≠ [])
    (hs1 : '/' ∉ nm) (hs2 : '/' ∉ fid) (hs3 : '/' ∉ ext)
    (hc1 : ',' ∉ fid) (hc2 : ',' ∉ ext)
    (hd1 : '.' ∉ ext)
    (hn0 : '\n' ∉ pre) (hn1 : '\n' ∉ nm) (hn2 : '\n' ∉ fid) (hn3 : '\n' ∉ ext) :
    matchAudio (pre ++ '/' :: (nm ++ ',' :: (fid ++ '.' :: ext)) ++ audioMark)
      = some (nm, fid, ext) := by
  have hnmpos : 0 < nm.length := List.length_pos.mpr hnm
  have hfidpos : 0 < fid.length := List.length_pos.mpr hfid
  have hextpos : 0 < ext.length := List.length_pos.mpr hext
  set M2 := fid ++ '.' :: ext with hM2
  set M1 := nm ++ ',' :: M2 with hM1
  set t := pre ++ '/' :: M1 with ht
  have hM2len : M2.length = fid.length + 1 + ext.length := by
    simp [hM2]
    omega
  have hM1len : M1.length = nm.length + 1 + M2.length := by
    simp [hM1]
    omega
  have hL : t.length = pre.length + 1 + nm.length + 1 + fid.length + 1 + ext.length := by
    simp [ht, hM1, hM2]
    omega
  -- the literal positions
  have hgetP : t[pre.length]? = some '/' := by
    rw [ht, List.getElem?_append_right (Nat.le_refl pre.length)]
    simp
  have hgetJ : t[pre.length + 1 + nm.length]? = some ',' := by
    rw [ht, List.getElem?_append_right (by omega : pre.length ≤ pre.length + 1 + nm.length),
      show pre.length + 1 + nm.length - pre.length = nm.length + 1 from by omega,
      List.getElem?_cons_succ, hM1,
      List.getElem?_append_right (Nat.le_refl nm.length)]
    simp
  have hgetK : t[pre.length + 1 + nm.length + 1 + fid.length]? = some '.' := by
    rw [ht,
      List.getElem?_append_right
        (by omega : pre.length ≤ pre.length + 1 + nm.length + 1 + fid.length),
      show pre.length + 1 + nm.length + 1 + fid.length - pre.length
          = (nm.length + 1 + fid.length) + 1 from by omega,
      List.getElem?_cons_succ, hM1,
      List.getElem?_append_right (by omega : nm.length ≤ nm.length + 1 + fid.length),
      show nm.length + 1 + fid.length - nm.length = fid.length + 1 from by omega,
      List.getElem?_cons_succ, hM2,
      List.getElem?_append_right (Nat.le_refl fid.length)]
    simp
  -- the group regions
  have hval : ∀ x, pre.length < x → x < t.length →
      x ≠ pre.length + 1 + nm.length →
      x ≠ pre.length + 1 + nm.length + 1 + fid.length →
      ∃ c, t[x]? = some c ∧
        ((x < pre.length + 1 + nm.length ∧ c ∈ nm) ∨
         (x < pre.length + 1 + nm.length + 1 + fid.length ∧ c ∈ fid) ∨
         (pre.length + 1 + nm.length + 1 + fid.length < x ∧ c ∈ ext)) := by
    intro x hx1 hx2 hxJ hxK
    rw [ht, List.getElem?_append_right (Nat.le_of_lt hx1)]
    obtain ⟨y, hy⟩ : ∃ y, x - pre.length = y + 1 := ⟨x - pre.length - 1, by omega⟩
    rw [hy, List.getElem?_cons_succ, hM1]
    by_cases hyn : y < nm.length
    · rw [List.getElem?_append, if_pos hyn, List.getElem?_eq_getElem hyn]
      exact ⟨nm[y], rfl, Or.inl ⟨by omega, List.getElem_mem hyn⟩⟩
    · have hyn' : nm.length ≤ y := by omega
      rw [List.getElem?_append_right hyn']
      obtain ⟨z, hz⟩ : ∃ z, y - nm.length = z + 1 := ⟨y - nm.length - 1, by omega⟩
      rw [hz, List.getElem?_cons_succ, hM2]
      by_cases hzf : z < fid.length
      · rw [List.getElem?_append, if_pos hzf, List.getElem?_eq_getElem hzf]
        exact ⟨fid[z], rfl, Or.inr (Or.inl ⟨by omega, List.getElem_mem hzf⟩)⟩
      · have hzf' : fid.length ≤ z := by omega
        rw [List.getElem?_append_right hzf']
        obtain ⟨w, hw⟩ : ∃ w, z - fid.length = w + 1 := ⟨z - fid.length - 1, by omega⟩
        have hwlt : w < ext.length := by omega
        rw [hw, List.getElem?_cons_succ, List.getElem?_eq_getElem hwlt]
        exact ⟨ext[w], rfl, Or.inr (Or.inr ⟨by omega, List.getElem_mem hwlt⟩)⟩
  have hno_slash : ∀ x, pre.length < x → x < t.length → t[x]? ≠ some '/' := by
    intro x h1 h2 hcon
    by_cases hxJ : x = pre.length + 1 + nm.length
    · subst hxJ; rw [hgetJ] at hcon; exact absurd (Option.some.inj hcon) (by decide)
    · by_cases hxK : x = pre.length + 1 + nm.length + 1 + fid.length
      · subst hxK; rw [hgetK] at hcon; exact absurd (Option.some.inj hcon) (by decide)
      · obtain ⟨c, hc, hreg⟩ := hval x h1 h2 hxJ hxK
        rw [hc] at hcon
        have hcs : c = '/' := Option.some.inj hcon
        subst hcs
        rcases hreg with ⟨_, hm⟩ | ⟨_, hm⟩ | ⟨_, hm⟩
        · exact hs1 hm
        · exact hs2 hm
        · exact hs3 hm
  have hno_comma : ∀ x, pre.length + 1 + nm.length < x → x < t.length →
      t[x]? ≠ some ',' := by
    intro x h1 h2 hcon
    by_cases hxK : x = pre.length + 1 + nm.length + 1 + fid.length
    · subst hxK; rw [hgetK] at hcon; exact absurd (Option.some.inj hcon) (by decide)
    · obtain ⟨c, hc, hreg⟩ := hval x (by omega) h2 (by omega) hxK
      rw [hc] at hcon
      have hcs : c = ',' := Option.some.inj hcon
      subst hcs
      rcases hreg with ⟨hlt, _⟩ | ⟨_, hm⟩ | ⟨_, hm⟩
      · omega
      · exact hc1 hm
      · exact hc2 hm
  have hno_dot : ∀ x, pre.length + 1 + nm.length + 1 + fid.length < x → x < t.length →
      t[x]? ≠ some '.' := by
    intro x h1 h2 hcon
    obtain ⟨c, hc, hreg⟩ := hval x (by omega) h2 (by omega) (by omega)
    rw [hc] at hcon
    have hcs : c = '.' := Option.some.inj hcon
    subst hcs
    rcases hreg with ⟨hlt, _⟩ | ⟨hlt, _⟩ | ⟨_, hm⟩
    · omega
    · omega
    · exact hd1 hm
  -- the greedy index searches
  have hfindK : findK t (pre.length + 1 + nm.length)
      = some (pre.length + 1 + nm.length + 1 + fid.length) := by
    apply findGreatest_eq_some
    · omega
    · simp only [pK, hgetK]
      simp
      omega
    · intro j hj1 hj2
      have hne := hno_dot j hj1 hj2
      simp only [pK]
      simp [hne]
  have hfindJ : findJ t pre.length = some (pre.length + 1 + nm.length) := by
    apply findGreatest_eq_some
    · omega
    · simp only [pJ, hgetJ, hfindK]
      simp
      omega
    · intro j hj1 hj2
      have hne := hno_comma j hj1 hj2
      simp only [pJ]
      simp [hne]
  have hfindI : findI t = some pre.length := by
    apply findGreatest_eq_some
    · omega
    · simp only [pI, hgetP, hfindJ]
      simp
    · intro j hj1 hj2
      have hne := hno_slash j hj1 hj2
      simp only [pI]
      simp [hne]
  -- the slices
  have hslice1 : sliceL t (pre.length + 1) (pre.length + 1 + nm.length) = nm := by
    unfold sliceL
    rw [ht, show pre.length + 1 = pre.length + 1 from rfl, List.drop_append 1,
      List.drop_one, List.tail_cons, hM1,
      show pre.length + 1 + nm.length - (pre.length + 1) = nm.length from by omega]
    exact List.take_left nm (',' :: M2)
  have hslice2 : sliceL t (pre.length + 1 + nm.length + 1)
      (pre.length + 1 + nm.length + 1 + fid.length) = fid := by
    unfold sliceL
    rw [ht, show pre.length + 1 + nm.length + 1 = pre.length + (nm.length + 2) from by omega,
      List.drop_append (nm.length + 2),
      show nm.length + 2 = (nm.length + 1) + 1 from rfl, List.drop_succ_cons, hM1,
      show nm.length + 1 = nm.length + 1 from rfl, List.drop_append 1,
      List.drop_one, List.tail_cons, hM2]
    have htake : ∀ n : Nat, n = fid.length → List.take n (fid ++ '.' :: ext) = fid := by
      intro n hn
      subst hn
      exact List.take_left fid ('.' :: ext)
    exact htake _ (by omega)
  have hslice3 : sliceL t (pre.length + 1 + nm.length + 1 + fid.length + 1) t.length = ext := by
    unfold sliceL
    rw [ht, show pre.length + 1 + nm.length + 1 + fid.length + 1
        = pre.length + (nm.length + fid.length + 3) from by omega,
      List.drop_append (nm.length + fid.length + 3),
      show nm.length + fid.length + 3 = (nm.length + (fid.length + 2)) + 1 from by omega,
      List.drop_succ_cons, hM1,
      show nm.length + (fid.length + 2) = nm.length + (fid.length + 2) from rfl,
      List.drop_append (fid.length + 2),
      show fid.length + 2 = (fid.length + 1) + 1 from rfl, List.drop_succ_cons, hM2,
      show fid.length + 1 = fid.length + 1 from rfl, List.drop_append 1,
      List.drop_one, List.tail_cons]
    have htake : ∀ n : Nat, n = ext.length → List.take n ext = ext := by
      intro n hn
      subst hn
      exact List.take_length ext
    have hlen2 : (pre ++ '/' :: (nm ++ ',' :: (fid ++ '.' :: ext))).length
        = pre.length + 1 + nm.length + 1 + fid.length + 1 + ext.length := by
      simp only [List.length_append, List.length_cons]
      omega
    exact htake _ (by omega)
  -- assemble
  have hlast : (t ++ audioMark).getLast? = some ')' := by
    rw [List.getLast?_append]
    rfl
  have hnt : '\n' ∉ t := by
    rw [ht, hM1, hM2]
    simp only [List.mem_append, List.mem_cons]
    push_neg
    refine ⟨hn0, by decide, hn1, by decide, hn2, by decide, hn3⟩
  unfold matchAudio
  rw [hlast]
  simp only [show ((some ')' == some '\n') : Bool) = false from by decide, Bool.false_eq_true,
    if_false]
  have hlen7 : (t ++ audioMark).length = t.length + 7 := by
    simp [audioMark]
  rw [hlen7]
  rw [if_neg (by omega)]
  rw [show t.length + 7 - 7 = t.length from by omega, List.drop_left, List.take_left]
  rw [if_neg (by simp)]
  simp only [hnt, if_false]
  rw [hfindI]
  simp only [hfindJ, hfindK, hslice1, hslice2, hslice3]

/-- C6: for a task whose resource URL ends in a `name,id.ext` triple
followed by the audio marker (components nonempty and free of the
delimiters that would shift the greedy match), and whose encoded name
and path decode successfully, `do` computes the local file name as the
decoded name plus `'.'` plus the extension, and substitutes the
extracted id into the `Audio.ashx` asset-resolution template. -/
theorem c6_downloader_plan
    (pre nm fid ext dn dpath : List Char) (lb ub url : String)
    (hnm : nm ≠ []) (hfid : fid ≠ []) (hext : ext ≠ [])
    (hs1 : '/' ∉ nm) (hs2 : '/' ∉ fid) (hs3 : '/' ∉ ext)
    (hc1 : ',' ∉ fid) (hc2 : ',' ∉ ext) (hd1 : '.' ∉ ext)
    (hn0 : '\n' ∉ pre) (hn1 : '\n' ∉ nm) (hn2 : '\n' ∉ fid) (hn3 : '\n' ∉ ext)
    (hurl : url.data = pre ++ '/' :: (nm ++ ',' :: (fid ++ '.' :: ext)) ++ audioMark)
    (hdn : chomikuj_path_to_utf nm = some dn)
    (hdp : chomikuj_path_to_utf (url.data.drop ub.data.length) = some dpath) :
    ∃ p, doTask ⟨url, lb, ub, "chomikuj_audio"⟩ = DoResult.plan p ∧
      p.fname = dn ++ '.' :: ext ∧
      p.download_url
        = "http://chomikuj.pl/Audio.ashx?id=".data ++ fid ++ "&type=2&tp=mp3".data := by
  unfold doTask
  rw [if_pos rfl]
  rw [hurl] at hdp
  rw [hurl,
    matchAudio_structural pre nm fid ext hnm hfid hext hs1 hs2 hs3 hc1 hc2 hd1 hn0 hn1 hn2 hn3]
  simp only [hdn, hdp]
  exact ⟨_, rfl, rfl, rfl⟩

/-- C6 witness: the spec's end-to-end example URL, yielding local name
`Song Name.mp3` and the transfer URL with id `12345`. -/
theorem c6_witness :
    ∃ p, doTask ⟨"http://chomikuj.pl/dir1/Song+Name,12345.mp3(audio)", ".",
        "http://chomikuj.pl/dir1", "chomikuj_audio"⟩ = DoResult.plan p ∧
      p.fname = "Song Name".data ++ '.' :: "mp3".data ∧
      p.download_url = "http://chomikuj.pl/Audio.ashx?id=".data ++ "12345".data
          ++ "&type=2&tp=mp3".data :=
  c6_downloader_plan "http://chomikuj.pl/dir1".data "Song+Name".data "12345".data "mp3".data
    "Song Name".data "/Song Name,12345.mp3(audio)".data
    "." "http://chomikuj.pl/dir1" "http://chomikuj.pl/dir1/Song+Name,12345.mp3(audio)"
    (by decide) (by decide) (by decide) (by decide) (by decide) (by decide)
    (by decide) (by decide) (by decide) (by decide) (by decide) (by decide) (by decide)
    (by decide) (by decide) (by decide)
